import Mathlib

/-!
Verification development for the SuperJSON-based Temporal payload converter
(`src/encoding.ts`).

The development shallowly embeds the converter:

* the byte codec `encode`/`decode` (UTF-8, `TextEncoder`/`TextDecoder`) as
  functions between `String` and `List Nat` (one `Nat` per byte);
* the platform JSON functions `JSON.stringify`/`JSON.parse` as
  `Json.stringify`/`Json.parse` over an inductive `Json` tree (numbers are
  modelled as integers, and the parser accepts the minimal grammar without
  insignificant whitespace — the fragment the converter itself produces);
* the external structural-serialization dependency (superjson) as a concrete
  `serialize`/`deserialize` pair over `JSValue`, modelled from the spec: the
  pair is total, deterministic, and each other's exact inverse, and the
  `meta` component is present exactly when the value contains a construct
  plain JSON cannot represent losslessly;
* `SuperJsonPayloadConverter.toPayload`/`fromPayload` and the composite
  dispatcher, translated from `src/encoding.ts`.
-/

/-! ## Byte codec (`src/encoding.ts` lines 1-8)

`encode` is `TextEncoder.encode` (UTF-8), `decode` is `TextDecoder.decode`.
Bytes are modelled as `Nat` values below 256. -/

/-- UTF-8 bytes of a single unicode scalar value. -/
def utf8EncodeChar (c : Char) : List Nat :=
  let n := c.toNat
  if n < 128 then [n]
  else if n < 2048 then [192 + n / 64, 128 + n % 64]
  else if n < 65536 then [224 + n / 4096, 128 + n / 64 % 64, 128 + n % 64]
  else [240 + n / 262144, 128 + n / 4096 % 64, 128 + n / 64 % 64, 128 + n % 64]

/-- UTF-8 bytes of a character list. -/
def utf8EncodeChars : List Char → List Nat
  | [] => []
  | c :: cs => utf8EncodeChar c ++ utf8EncodeChars cs

/-- Encode a string to UTF-8 bytes (`encode` in `src/encoding.ts`). -/
def encode (s : String) : List Nat := utf8EncodeChars s.data

/-- The U+FFFD replacement character produced by `TextDecoder` on malformed
input. -/
def replacementChar : Char := Char.ofNat 65533

/-- A UTF-8 continuation byte. -/
def isCont (b : Nat) : Bool := 128 ≤ b && b < 192

/-- Byte-at-a-time UTF-8 decoding loop. `need` counts the continuation bytes
still expected for the character in progress and `acc` holds its partial
scalar value. Malformed sequences yield the replacement character (the
platform decoder's error recovery; the exact bytes consumed at a malformed
position are a modelling choice, exercised by no theorem — every theorem
below only decodes well-formed output of `utf8EncodeChars`). -/
def utf8DecodeLoop : List Nat → Nat → Nat → List Char
  | [], 0, _ => []
  | [], _ + 1, _ => [replacementChar]
  | b :: rest, 0, _ =>
    if b < 128 then Char.ofNat b :: utf8DecodeLoop rest 0 0
    else if b < 192 then replacementChar :: utf8DecodeLoop rest 0 0
    else if b < 224 then utf8DecodeLoop rest 1 (b - 192)
    else if b < 240 then utf8DecodeLoop rest 2 (b - 224)
    else if b < 248 then utf8DecodeLoop rest 3 (b - 240)
    else replacementChar :: utf8DecodeLoop rest 0 0
  | b :: rest, 1, acc =>
    if isCont b then Char.ofNat (acc * 64 + (b - 128)) :: utf8DecodeLoop rest 0 0
    else replacementChar :: utf8DecodeLoop rest 0 0
  | b :: rest, need + 2, acc =>
    if isCont b then utf8DecodeLoop rest (need + 1) (acc * 64 + (b - 128))
    else replacementChar :: utf8DecodeLoop rest 0 0

/-- Decode a UTF-8 byte sequence to characters. -/
def utf8DecodeChars (bs : List Nat) : List Char := utf8DecodeLoop bs 0 0

/-- Decode UTF-8 bytes to a string (`decode` in `src/encoding.ts`). -/
def decode (b : List Nat) : String := String.mk (utf8DecodeChars b)

theorem char_toNat_lt (c : Char) : c.toNat < 1114112 := by
  rcases c.valid with h | ⟨_, h2⟩
  · exact Nat.lt_trans h (by norm_num)
  · exact h2

theorem isCont_of_range {b : Nat} (h1 : 128 ≤ b) (h2 : b < 192) : isCont b = true := by
  rw [isCont]; simp only [Bool.and_eq_true, decide_eq_true_eq]; omega

theorem utf8DecodeLoop_encodeChar (c : Char) (rest : List Nat) :
    utf8DecodeLoop (utf8EncodeChar c ++ rest) 0 0 = c :: utf8DecodeLoop rest 0 0 := by
  have hv := char_toNat_lt c
  rw [utf8EncodeChar]
  rcases Nat.lt_or_ge c.toNat 128 with h1 | h1
  · rw [if_pos h1]
    show utf8DecodeLoop (c.toNat :: rest) 0 0 = c :: utf8DecodeLoop rest 0 0
    rw [utf8DecodeLoop, if_pos h1, Char.ofNat_toNat]
  · rcases Nat.lt_or_ge c.toNat 2048 with h2 | h2
    · rw [if_neg (by omega), if_pos h2]
      show utf8DecodeLoop ((192 + c.toNat / 64) :: (128 + c.toNat % 64) :: rest) 0 0 =
        c :: utf8DecodeLoop rest 0 0
      rw [utf8DecodeLoop, if_neg (by omega), if_neg (by omega), if_pos (by omega)]
      rw [utf8DecodeLoop, if_pos (isCont_of_range (by omega) (by omega))]
      have : (192 + c.toNat / 64 - 192) * 64 + (128 + c.toNat % 64 - 128) = c.toNat := by omega
      rw [this, Char.ofNat_toNat]
    · rcases Nat.lt_or_ge c.toNat 65536 with h3 | h3
      · rw [if_neg (by omega), if_neg (by omega), if_pos h3]
        show utf8DecodeLoop
            ((224 + c.toNat / 4096) :: (128 + c.toNat / 64 % 64) ::
              (128 + c.toNat % 64) :: rest) 0 0 =
          c :: utf8DecodeLoop rest 0 0
        rw [utf8DecodeLoop, if_neg (by omega), if_neg (by omega), if_neg (by omega),
          if_pos (by omega)]
        rw [utf8DecodeLoop, if_pos (isCont_of_range (by omega) (by omega))]
        rw [utf8DecodeLoop, if_pos (isCont_of_range (by omega) (by omega))]
        have : (224 + c.toNat / 4096 - 224) * 64 + (128 + c.toNat / 64 % 64 - 128) =
            c.toNat / 64 := by omega
        rw [this]
        have : c.toNat / 64 * 64 + (128 + c.toNat % 64 - 128) = c.toNat := by omega
        rw [this, Char.ofNat_toNat]
      · rw [if_neg (by omega), if_neg (by omega), if_neg (by omega)]
        show utf8DecodeLoop
            ((240 + c.toNat / 262144) :: (128 + c.toNat / 4096 % 64) ::
              (128 + c.toNat / 64 % 64) :: (128 + c.toNat % 64) :: rest) 0 0 =
          c :: utf8DecodeLoop rest 0 0
        rw [utf8DecodeLoop, if_neg (by omega), if_neg (by omega), if_neg (by omega),
          if_neg (by omega), if_pos (by omega)]
        rw [utf8DecodeLoop, if_pos (isCont_of_range (by omega) (by omega))]
        rw [utf8DecodeLoop, if_pos (isCont_of_range (by omega) (by omega))]
        rw [utf8DecodeLoop, if_pos (isCont_of_range (by omega) (by omega))]
        have : (240 + c.toNat / 262144 - 240) * 64 + (128 + c.toNat / 4096 % 64 - 128) =
            c.toNat / 4096 := by omega
        rw [this]
        have : c.toNat / 4096 * 64 + (128 + c.toNat / 64 % 64 - 128) = c.toNat / 64 := by omega
        rw [this]
        have : c.toNat / 64 * 64 + (128 + c.toNat % 64 - 128) = c.toNat := by omega
        rw [this, Char.ofNat_toNat]

theorem utf8DecodeChars_encodeChars (l : List Char) :
    utf8DecodeChars (utf8EncodeChars l) = l := by
  rw [utf8DecodeChars]
  induction l with
  | nil => rfl
  | cons c cs ih => rw [utf8EncodeChars, utf8DecodeLoop_encodeChar, ih]

theorem decode_encode_aux (s : String) : decode (encode s) = s := by
  cases s with
  | mk data => rw [decode, encode, utf8DecodeChars_encodeChars]

/-- C7: the byte codec round-trips: `decode(encode(s)) == s` for every valid
string `s`. `encode` is the total, deterministic UTF-8 encoding, and `decode`
inverts it on its image. -/
theorem decode_encode (s : String) : decode (encode s) = s := decode_encode_aux s

/-! ## Decimal digits

Decimal printing and scanning of integers, used by the JSON model for number
literals and by the modelled structural-serialization dependency for
timestamp and big-integer stand-in strings. -/

/-- The ASCII decimal digits. -/
def isDigitChar (c : Char) : Bool := 48 ≤ c.toNat && c.toNat ≤ 57

/-- Fuel-driven accumulation of the decimal digits of `n` (most significant
first) in front of `acc`. The fuel `n + 1` in `natToChars` always suffices. -/
def natDigitsAux : Nat → Nat → List Char → List Char
  | 0, _, acc => acc
  | fuel + 1, n, acc =>
    if n < 10 then Nat.digitChar n :: acc
    else natDigitsAux fuel (n / 10) (Nat.digitChar (n % 10) :: acc)

/-- Decimal digits of a natural number, most significant first. -/
def natToChars (n : Nat) : List Char := natDigitsAux (n + 1) n []

/-- Decimal spelling of an integer, with a leading minus sign when negative. -/
def intChars (n : Int) : List Char :=
  if n < 0 then '-' :: natToChars n.natAbs else natToChars n.toNat

/-- Decimal spelling of an integer as a string. -/
def intToString (n : Int) : String := String.mk (intChars n)

/-- Scan a maximal run of decimal digits, folding them onto `acc`; returns the
value and the unconsumed remainder. -/
def parseDigits : List Char → Nat → Nat × List Char
  | [], acc => (acc, [])
  | c :: rest, acc =>
    if isDigitChar c then parseDigits rest (acc * 10 + (c.toNat - 48)) else (acc, c :: rest)

/-- Read a decimal integer (optional leading minus sign) from the whole
string; used by the modelled dependency to restore timestamps and
big integers from their stand-in strings. -/
def strToInt (s : String) : Int :=
  match s.data with
  | [] => 0
  | c :: rest =>
    if c = '-' then -(((parseDigits rest 0).1 : Nat) : Int)
    else (((parseDigits (c :: rest) 0).1 : Nat) : Int)

/-- Character lists that do not begin with a decimal digit; a digit run
followed by such a list scans back to the same run. -/
def noDigitStart : List Char → Bool
  | [] => true
  | c :: _ => !isDigitChar c

theorem natDigitsAux_append (fuel : Nat) :
    ∀ n acc, natDigitsAux fuel n acc = natDigitsAux fuel n [] ++ acc := by
  induction fuel with
  | zero => intro n acc; rfl
  | succ fuel ih =>
    intro n acc
    by_cases h : n < 10
    · rw [natDigitsAux, natDigitsAux, if_pos h, if_pos h]; rfl
    · rw [natDigitsAux, natDigitsAux, if_neg h, if_neg h, ih (n / 10),
        ih (n / 10) (Nat.digitChar (n % 10) :: []), List.append_assoc]
      rfl

theorem natDigitsAux_fuel (f1 : Nat) :
    ∀ f2 n acc, n < f1 → n < f2 → natDigitsAux f1 n acc = natDigitsAux f2 n acc := by
  induction f1 with
  | zero => intro f2 n acc h1; omega
  | succ f1 ih =>
    intro f2 n acc h1 h2
    cases f2 with
    | zero => omega
    | succ f2 =>
      by_cases h : n < 10
      · rw [natDigitsAux, natDigitsAux, if_pos h, if_pos h]
      · rw [natDigitsAux, natDigitsAux, if_neg h, if_neg h]
        exact ih f2 (n / 10) _ (by omega) (by omega)

theorem natToChars_lt10 {n : Nat} (h : n < 10) : natToChars n = [Nat.digitChar n] := by
  rw [natToChars, natDigitsAux, if_pos h]

theorem natToChars_ge10 {n : Nat} (h : 10 ≤ n) :
    natToChars n = natToChars (n / 10) ++ [Nat.digitChar (n % 10)] := by
  rw [natToChars, natDigitsAux, if_neg (by omega),
    natDigitsAux_fuel n (n / 10 + 1) (n / 10) _ (by omega) (by omega),
    natDigitsAux_append]
  rfl

theorem isDigitChar_digitChar {n : Nat} (h : n < 10) : isDigitChar (Nat.digitChar n) = true := by
  interval_cases n <;> decide

theorem digitChar_toNat {n : Nat} (h : n < 10) : (Nat.digitChar n).toNat = 48 + n := by
  interval_cases n <;> decide

theorem natToChars_digits (n : Nat) : ∀ c ∈ natToChars n, isDigitChar c = true := by
  induction n using Nat.strong_induction_on with
  | _ n ih =>
    by_cases h : n < 10
    · rw [natToChars_lt10 h]
      intro c hc
      rw [List.mem_singleton] at hc
      subst hc
      exact isDigitChar_digitChar h
    · rw [natToChars_ge10 (by omega)]
      intro c hc
      rcases List.mem_append.mp hc with hm | hm
      · exact ih (n / 10) (by omega) c hm
      · rw [List.mem_singleton] at hm
        subst hm
        exact isDigitChar_digitChar (by omega)

theorem natToChars_ne_nil (n : Nat) : natToChars n ≠ [] := by
  by_cases h : n < 10
  · rw [natToChars_lt10 h]; simp
  · rw [natToChars_ge10 (by omega)]; simp

/-- One digit-scanning step: append a digit to the running value. -/
def digitStep (a : Nat) (c : Char) : Nat := a * 10 + (c.toNat - 48)

theorem parseDigits_spec (ds : List Char) :
    ∀ rest acc, (∀ c ∈ ds, isDigitChar c = true) → noDigitStart rest = true →
      parseDigits (ds ++ rest) acc = (List.foldl digitStep acc ds, rest) := by
  induction ds with
  | nil =>
    intro rest acc _ hrest
    cases rest with
    | nil => rfl
    | cons c r =>
      rw [noDigitStart, Bool.not_eq_eq_eq_not, Bool.not_true] at hrest
      rw [List.nil_append, List.foldl_nil, parseDigits, if_neg (by simp [hrest])]
  | cons d ds ih =>
    intro rest acc hall hrest
    have hd : isDigitChar d = true := hall d (List.mem_cons_self d ds)
    rw [List.cons_append, parseDigits, if_pos hd, List.foldl_cons,
      ih rest _ (fun c hc => hall c (List.mem_cons_of_mem d hc)) hrest]
    rfl

theorem foldl_digitStep_natToChars (n : Nat) :
    ∀ acc, List.foldl digitStep acc (natToChars n) = acc * 10 ^ (natToChars n).length + n := by
  induction n using Nat.strong_induction_on with
  | _ n ih =>
    intro acc
    by_cases h : n < 10
    · rw [natToChars_lt10 h, List.foldl_cons, List.foldl_nil, List.length_singleton,
        digitStep, digitChar_toNat h, pow_one]
      omega
    · rw [natToChars_ge10 (by omega), List.foldl_append, List.foldl_cons, List.foldl_nil,
        ih (n / 10) (by omega) acc, List.length_append, List.length_singleton,
        digitStep, digitChar_toNat (by omega : n % 10 < 10), pow_succ]
      have hmod : 48 + n % 10 - 48 = n % 10 := by omega
      rw [hmod]
      have : acc * (10 ^ (natToChars (n / 10)).length * 10) =
          acc * 10 ^ (natToChars (n / 10)).length * 10 := by ring
      rw [this]
      omega

theorem parseDigits_natToChars (n : Nat) (rest : List Char) (hrest : noDigitStart rest = true) :
    parseDigits (natToChars n ++ rest) 0 = (n, rest) := by
  rw [parseDigits_spec _ _ _ (natToChars_digits n) hrest, foldl_digitStep_natToChars]
  simp

theorem natToChars_head_digit (n : Nat) :
    ∃ c cs, natToChars n = c :: cs ∧ isDigitChar c = true := by
  cases h : natToChars n with
  | nil => exact absurd h (natToChars_ne_nil n)
  | cons c cs =>
    refine ⟨c, cs, rfl, ?_⟩
    exact natToChars_digits n c (h ▸ List.mem_cons_self c cs)

/-! ## JSON model

`Json` models the plain-JSON value trees exchanged with the platform
functions `JSON.stringify` and `JSON.parse` (which live outside this
repository). Numbers are modelled as integers — the only numbers the
converter's own envelope machinery produces. `Json.stringify` emits the
canonical whitespace-free form `JSON.stringify` produces (with control
characters uniformly escaped as `\u00..`), and `Json.parse` reads the
whitespace-free JSON grammar, failing (`none`) on malformed text exactly
where `JSON.parse` throws. -/

inductive Json where
  | null
  | bool (b : Bool)
  | num (n : Int)
  | str (s : String)
  | arr (elements : List Json)
  | obj (fields : List (String × Json))
deriving Repr

/-- Value of an ASCII hexadecimal digit. -/
def hexVal (c : Char) : Nat :=
  if 48 ≤ c.toNat && c.toNat ≤ 57 then c.toNat - 48
  else if 97 ≤ c.toNat && c.toNat ≤ 102 then c.toNat - 87
  else if 65 ≤ c.toNat && c.toNat ≤ 70 then c.toNat - 55
  else 0

/-- ASCII hexadecimal digits. -/
def isHexDigit (c : Char) : Bool :=
  (48 ≤ c.toNat && c.toNat ≤ 57) || (97 ≤ c.toNat && c.toNat ≤ 102) ||
    (65 ≤ c.toNat && c.toNat ≤ 70)

/-- JSON string-literal escaping of one character: quote and backslash get a
backslash escape, control characters a `\u00..` escape, everything else is
literal. -/
def escapeChar (c : Char) : List Char :=
  if c = '"' then ['\\', '"']
  else if c = '\\' then ['\\', '\\']
  else if c.toNat < 32 then
    ['\\', 'u', '0', '0', Nat.digitChar (c.toNat / 16), Nat.digitChar (c.toNat % 16)]
  else [c]

/-- JSON string-literal escaping of a character list. -/
def escapeChars : List Char → List Char
  | [] => []
  | c :: cs => escapeChar c ++ escapeChars cs

mutual

/-- Characters of `JSON.stringify` output for a `Json` tree. -/
def Json.stringifyChars : Json → List Char
  | .null => 'n' :: ['u', 'l', 'l']
  | .bool true => 't' :: ['r', 'u', 'e']
  | .bool false => 'f' :: ['a', 'l', 's', 'e']
  | .num n => intChars n
  | .str s => '"' :: escapeChars s.data ++ ['"']
  | .arr xs => '[' :: Json.stringifyElems xs ++ [']']
  | .obj fs => '{' :: Json.stringifyFields fs ++ ['}']

/-- Comma-separated array elements. -/
def Json.stringifyElems : List Json → List Char
  | [] => []
  | [j] => Json.stringifyChars j
  | j :: j2 :: rest => Json.stringifyChars j ++ ',' :: Json.stringifyElems (j2 :: rest)

/-- Comma-separated object members, each a quoted key, a colon and a value. -/
def Json.stringifyFields : List (String × Json) → List Char
  | [] => []
  | [(k, v)] => '"' :: escapeChars k.data ++ '"' :: ':' :: Json.stringifyChars v
  | (k, v) :: f :: rest =>
    '"' :: escapeChars k.data ++ '"' :: ':' :: Json.stringifyChars v ++
      ',' :: Json.stringifyFields (f :: rest)

end

/-- The `JSON.stringify` model. -/
def Json.stringify (j : Json) : String := String.mk (Json.stringifyChars j)

mutual

/-- Fuel needed by `parseVal` to read back a stringified value. -/
def jfuel : Json → Nat
  | .null => 1
  | .bool _ => 1
  | .num _ => 1
  | .str _ => 1
  | .arr xs => 1 + jfuelElems xs
  | .obj fs => 1 + jfuelFields fs

/-- Fuel needed by `parseElems` to read back stringified array elements. -/
def jfuelElems : List Json → Nat
  | [] => 0
  | x :: xs => 1 + jfuel x + jfuelElems xs

/-- Fuel needed by `parseMembers` to read back stringified object members. -/
def jfuelFields : List (String × Json) → Nat
  | [] => 0
  | (_, v) :: fs => 1 + jfuel v + jfuelFields fs

end

/-- Head-character test used for one-character lookahead. -/
def headIs : List Char → Char → Bool
  | [], _ => false
  | c :: _, d => c == d

/-- Read a JSON string-literal body (after the opening quote) up to and past
the closing quote, undoing the escapes `JSON.parse` understands. -/
def parseStrBody : List Char → Option (List Char × List Char)
  | [] => none
  | c :: rest =>
    if c = '"' then some ([], rest)
    else if c = '\\' then
      match rest with
      | [] => none
      | e :: rest2 =>
        if e = 'u' then
          match rest2 with
          | a :: b :: c2 :: d :: rest3 =>
            if isHexDigit a && isHexDigit b && isHexDigit c2 && isHexDigit d then
              match parseStrBody rest3 with
              | some (s, r) =>
                some (Char.ofNat (hexVal a * 4096 + hexVal b * 256 + hexVal c2 * 16 + hexVal d)
                  :: s, r)
              | none => none
            else none
          | _ => none
        else if e = '"' then
          match parseStrBody rest2 with
          | some (s, r) => some ('"' :: s, r)
          | none => none
        else if e = '\\' then
          match parseStrBody rest2 with
          | some (s, r) => some ('\\' :: s, r)
          | none => none
        else if e = '/' then
          match parseStrBody rest2 with
          | some (s, r) => some ('/' :: s, r)
          | none => none
        else if e = 'n' then
          match parseStrBody rest2 with
          | some (s, r) => some (Char.ofNat 10 :: s, r)
          | none => none
        else if e = 't' then
          match parseStrBody rest2 with
          | some (s, r) => some (Char.ofNat 9 :: s, r)
          | none => none
        else if e = 'r' then
          match parseStrBody rest2 with
          | some (s, r) => some (Char.ofNat 13 :: s, r)
          | none => none
        else if e = 'b' then
          match parseStrBody rest2 with
          | some (s, r) => some (Char.ofNat 8 :: s, r)
          | none => none
        else if e = 'f' then
          match parseStrBody rest2 with
          | some (s, r) => some (Char.ofNat 12 :: s, r)
          | none => none
        else none
    else
      match parseStrBody rest with
      | some (s, r) => some (c :: s, r)
      | none => none

/-- Character lists that begin with a decimal digit. -/
def digitStart : List Char → Bool
  | [] => false
  | c :: _ => isDigitChar c

/-- Read a JSON integer literal (optional minus sign and a digit run). -/
def parseNumber : List Char → Option (Int × List Char)
  | [] => none
  | c :: rest =>
    if c = '-' then
      if digitStart rest then
        some (-(((parseDigits rest 0).1 : Nat) : Int), (parseDigits rest 0).2)
      else none
    else if isDigitChar c then
      some ((((parseDigits (c :: rest) 0).1 : Nat) : Int), (parseDigits (c :: rest) 0).2)
    else none

/-- Match an expected literal character sequence at the front of the input,
returning the remainder. -/
def expectChars : List Char → List Char → Option (List Char)
  | [], cs => some cs
  | _ :: _, [] => none
  | p :: ps, c :: cs => if c = p then expectChars ps cs else none

mutual

/-- Read one JSON value. The fuel bounds the nesting-driven recursion; the
`jfuel` measure of a value always fits within one more unit of fuel than the
length of its text. -/
def parseVal : Nat → List Char → Option (Json × List Char)
  | 0, _ => none
  | _ + 1, [] => none
  | fuel + 1, c :: rest =>
    if c = 'n' then
      match expectChars ['u', 'l', 'l'] rest with
      | some r => some (.null, r)
      | none => none
    else if c = 't' then
      match expectChars ['r', 'u', 'e'] rest with
      | some r => some (.bool true, r)
      | none => none
    else if c = 'f' then
      match expectChars ['a', 'l', 's', 'e'] rest with
      | some r => some (.bool false, r)
      | none => none
    else if c = '"' then
      match parseStrBody rest with
      | some (s, r) => some (.str (String.mk s), r)
      | none => none
    else if c = '[' then
      if headIs rest ']' then some (.arr [], rest.tail)
      else
        match parseElems fuel rest with
        | some (xs, r) => some (.arr xs, r)
        | none => none
    else if c = '{' then
      if headIs rest '}' then some (.obj [], rest.tail)
      else
        match parseMembers fuel rest with
        | some (fs, r) => some (.obj fs, r)
        | none => none
    else
      match parseNumber (c :: rest) with
      | some (n, r) => some (.num n, r)
      | none => none

/-- Read one or more comma-separated array elements and the closing bracket. -/
def parseElems : Nat → List Char → Option (List Json × List Char)
  | 0, _ => none
  | fuel + 1, cs =>
    match parseVal fuel cs with
    | none => none
    | some (v, r) =>
      match r with
      | [] => none
      | sep :: r2 =>
        if sep = ',' then
          match parseElems fuel r2 with
          | some (xs, r3) => some (v :: xs, r3)
          | none => none
        else if sep = ']' then some ([v], r2)
        else none

/-- Read one or more comma-separated object members and the closing brace. -/
def parseMembers : Nat → List Char → Option (List (String × Json) × List Char)
  | 0, _ => none
  | _ + 1, [] => none
  | fuel + 1, c :: r =>
    if c = '"' then
      match parseStrBody r with
      | none => none
      | some (k, r1) =>
        match r1 with
        | [] => none
        | c1 :: r2 =>
          if c1 = ':' then
            match parseVal fuel r2 with
            | none => none
            | some (v, r3) =>
              match r3 with
              | [] => none
              | c2 :: r4 =>
                if c2 = ',' then
                  match parseMembers fuel r4 with
                  | some (fs, r5) => some ((String.mk k, v) :: fs, r5)
                  | none => none
                else if c2 = '}' then some ([(String.mk k, v)], r4)
                else none
          else none
    else none

end

theorem expectChars_append (ps : List Char) : ∀ rest, expectChars ps (ps ++ rest) = some rest := by
  induction ps with
  | nil => intro rest; rw [List.nil_append, expectChars]
  | cons p ps ih => intro rest; rw [List.cons_append, expectChars, if_pos rfl, ih]

/-- The `JSON.parse` model: read one value consuming the whole input. -/
def Json.parse (s : String) : Option Json :=
  match parseVal (s.data.length + 1) s.data with
  | some (j, []) => some j
  | _ => none

/-! ## The parser reads back what stringify writes -/

theorem string_mk_data (s : String) : String.mk s.data = s := by
  cases s with
  | mk l => rfl

theorem isDigitChar_ne_specials {c : Char} (h : isDigitChar c = true) :
    c ≠ 'n' ∧ c ≠ 't' ∧ c ≠ 'f' ∧ c ≠ '"' ∧ c ≠ '[' ∧ c ≠ '{' ∧ c ≠ '-' ∧ c ≠ ']' ∧ c ≠ '}' := by
  rw [isDigitChar, Bool.and_eq_true, decide_eq_true_eq, decide_eq_true_eq] at h
  refine ⟨?_, ?_, ?_, ?_, ?_, ?_, ?_, ?_, ?_⟩ <;> (intro he; subst he; revert h; decide)

theorem intChars_head (n : Int) :
    ∃ c cs, intChars n = c :: cs ∧ (c = '-' ∨ isDigitChar c = true) := by
  rw [intChars]
  by_cases hn : n < 0
  · exact ⟨'-', natToChars n.natAbs, by rw [if_pos hn], Or.inl rfl⟩
  · obtain ⟨c, cs, hc, hd⟩ := natToChars_head_digit n.toNat
    exact ⟨c, cs, by rw [if_neg hn, hc], Or.inr hd⟩

theorem digitStart_natToChars (m : Nat) (rest : List Char) :
    digitStart (natToChars m ++ rest) = true := by
  obtain ⟨c, cs, hc, hd⟩ := natToChars_head_digit m
  rw [hc, List.cons_append, digitStart, hd]

theorem parseNumber_intChars (n : Int) (rest : List Char) (hrest : noDigitStart rest = true) :
    parseNumber (intChars n ++ rest) = some (n, rest) := by
  rw [intChars]
  by_cases hn : n < 0
  · rw [if_pos hn, List.cons_append, parseNumber, if_pos rfl,
      digitStart_natToChars n.natAbs rest, if_pos rfl,
      parseDigits_natToChars n.natAbs rest hrest]
    have : -((n.natAbs : Nat) : Int) = n := by omega
    rw [this]
  · obtain ⟨c, cs, hc, hd⟩ := natToChars_head_digit n.toNat
    rw [if_neg hn, hc, List.cons_append, parseNumber,
      if_neg (isDigitChar_ne_specials hd).2.2.2.2.2.2.1, if_pos hd,
      ← List.cons_append, ← hc, parseDigits_natToChars n.toNat rest hrest]
    have : ((n.toNat : Nat) : Int) = n := by omega
    rw [this]

theorem isHexDigit_digitChar {n : Nat} (h : n < 16) : isHexDigit (Nat.digitChar n) = true := by
  interval_cases n <;> decide

theorem hexVal_digitChar {n : Nat} (h : n < 16) : hexVal (Nat.digitChar n) = n := by
  interval_cases n <;> decide

theorem parseStrBody_escapeChars (s : List Char) :
    ∀ rest, parseStrBody (escapeChars s ++ '"' :: rest) = some (s, rest) := by
  induction s with
  | nil =>
    intro rest
    rw [escapeChars, List.nil_append, parseStrBody.eq_def]
    simp only []
    rw [if_pos trivial]
  | cons c cs ih =>
    intro rest
    rw [escapeChars, List.append_assoc, escapeChar]
    by_cases h1 : c = '"'
    · subst h1
      rw [if_pos rfl, List.cons_append, List.cons_append, parseStrBody.eq_def]
      simp only [List.nil_append]
      rw [if_pos trivial, if_pos trivial, ih rest]
      simp
    · by_cases h2 : c = '\\'
      · subst h2
        rw [if_neg (by decide), if_pos rfl, List.cons_append, List.cons_append,
          parseStrBody.eq_def]
        simp only [List.nil_append]
        rw [if_pos trivial, if_pos trivial, ih rest]
        simp
      · by_cases h3 : c.toNat < 32
        · rw [if_neg h1, if_neg h2, if_pos h3, List.cons_append, List.cons_append,
            List.cons_append, List.cons_append, List.cons_append, List.cons_append,
            parseStrBody.eq_def]
          simp only [List.nil_append]
          have hd1 : isHexDigit (Nat.digitChar (c.toNat / 16)) = true :=
            isHexDigit_digitChar (by omega)
          have hd2 : isHexDigit (Nat.digitChar (c.toNat % 16)) = true :=
            isHexDigit_digitChar (by omega)
          rw [if_neg (by decide), if_pos trivial, if_pos trivial,
            if_pos (by rw [hd1, hd2]; decide), ih rest]
          simp only []
          have hv : hexVal '0' * 4096 + hexVal '0' * 256 +
              hexVal (Nat.digitChar (c.toNat / 16)) * 16 +
              hexVal (Nat.digitChar (c.toNat % 16)) = c.toNat := by
            rw [hexVal_digitChar (by omega : c.toNat / 16 < 16),
              hexVal_digitChar (by omega : c.toNat % 16 < 16)]
            show 0 * 4096 + 0 * 256 + c.toNat / 16 * 16 + c.toNat % 16 = c.toNat
            omega
          rw [hv, Char.ofNat_toNat]
        · rw [if_neg h1, if_neg h2, if_neg h3, List.cons_append, parseStrBody.eq_def]
          simp only [List.nil_append]
          rw [if_neg h1, if_neg h2, ih rest]

theorem headIs_cons_false {c d : Char} {cs : List Char} (h : c ≠ d) :
    headIs (c :: cs) d = false := by
  rw [headIs]
  exact beq_eq_false_iff_ne.mpr h

theorem stringifyChars_head (j : Json) :
    ∃ c cs, Json.stringifyChars j = c :: cs ∧ c ≠ ']' ∧ c ≠ '}' := by
  cases j with
  | null => exact ⟨'n', _, by rw [Json.stringifyChars], by decide, by decide⟩
  | bool b =>
    cases b with
    | true => exact ⟨'t', _, by rw [Json.stringifyChars], by decide, by decide⟩
    | false => exact ⟨'f', _, by rw [Json.stringifyChars], by decide, by decide⟩
  | num n =>
    obtain ⟨c, cs, hc, hd⟩ := intChars_head n
    refine ⟨c, cs, by rw [Json.stringifyChars, hc], ?_, ?_⟩
    · rcases hd with rfl | hd
      · decide
      · exact (isDigitChar_ne_specials hd).2.2.2.2.2.2.2.1
    · rcases hd with rfl | hd
      · decide
      · exact (isDigitChar_ne_specials hd).2.2.2.2.2.2.2.2
  | str s =>
    exact ⟨'"', escapeChars s.data ++ ['"'],
      by rw [Json.stringifyChars, List.cons_append], by decide, by decide⟩
  | arr xs =>
    exact ⟨'[', Json.stringifyElems xs ++ [']'],
      by rw [Json.stringifyChars, List.cons_append], by decide, by decide⟩
  | obj fs =>
    exact ⟨'{', Json.stringifyFields fs ++ ['}'],
      by rw [Json.stringifyChars, List.cons_append], by decide, by decide⟩

theorem stringifyElems_head (x : Json) (xs : List Json) :
    ∃ c cs, Json.stringifyElems (x :: xs) = c :: cs ∧ c ≠ ']' ∧ c ≠ '}' := by
  obtain ⟨c, cs, hc, h1, h2⟩ := stringifyChars_head x
  cases xs with
  | nil => exact ⟨c, cs, by rw [Json.stringifyElems, hc], h1, h2⟩
  | cons y ys =>
    exact ⟨c, cs ++ ',' :: Json.stringifyElems (y :: ys),
      by rw [Json.stringifyElems, hc, List.cons_append], h1, h2⟩

theorem stringifyFields_head (f : String × Json) (fs : List (String × Json)) :
    ∃ cs, Json.stringifyFields (f :: fs) = '"' :: cs := by
  obtain ⟨k, v⟩ := f
  cases fs with
  | nil =>
    exact ⟨escapeChars k.data ++ '"' :: ':' :: Json.stringifyChars v,
      by rw [Json.stringifyFields, List.cons_append]⟩
  | cons g gs =>
    exact ⟨(escapeChars k.data ++ '"' :: ':' :: Json.stringifyChars v) ++
      ',' :: Json.stringifyFields (g :: gs),
      by rw [Json.stringifyFields]; simp [List.cons_append, List.append_assoc]⟩

theorem jfuel_pos (j : Json) : 1 ≤ jfuel j := by
  cases j with
  | null => rw [jfuel]
  | bool b => rw [jfuel]
  | num n => rw [jfuel]
  | str s => rw [jfuel]
  | arr xs => rw [jfuel]; omega
  | obj fs => rw [jfuel]; omega

mutual

theorem jfuel_le_len : ∀ j : Json, jfuel j ≤ (Json.stringifyChars j).length
  | .null => by rw [jfuel, Json.stringifyChars]; simp
  | .bool true => by rw [jfuel, Json.stringifyChars]; simp
  | .bool false => by rw [jfuel, Json.stringifyChars]; simp
  | .num n => by
    rw [jfuel, Json.stringifyChars]
    obtain ⟨c, cs, hc, _⟩ := intChars_head n
    rw [hc]
    simp
  | .str s => by rw [jfuel, Json.stringifyChars]; simp
  | .arr xs => by
    rw [jfuel, Json.stringifyChars]
    have h := jfuelElems_le_len xs
    simp only [List.length_cons, List.length_append, List.length_singleton]
    omega
  | .obj fs => by
    rw [jfuel, Json.stringifyChars]
    have h := jfuelFields_le_len fs
    simp only [List.length_cons, List.length_append, List.length_singleton]
    omega

theorem jfuelElems_le_len : ∀ xs : List Json, jfuelElems xs ≤ (Json.stringifyElems xs).length + 1
  | [] => by rw [jfuelElems]; omega
  | [x] => by
    rw [jfuelElems, jfuelElems, Json.stringifyElems]
    have h := jfuel_le_len x
    omega
  | x :: y :: rest => by
    rw [jfuelElems, Json.stringifyElems]
    have h1 := jfuel_le_len x
    have h2 := jfuelElems_le_len (y :: rest)
    simp only [List.length_append, List.length_cons]
    omega

theorem jfuelFields_le_len :
    ∀ fs : List (String × Json), jfuelFields fs ≤ (Json.stringifyFields fs).length + 1
  | [] => by rw [jfuelFields]; omega
  | [(k, v)] => by
    rw [jfuelFields, jfuelFields, Json.stringifyFields]
    have h := jfuel_le_len v
    simp only [List.length_cons, List.length_append]
    omega
  | (k, v) :: g :: rest => by
    rw [jfuelFields, Json.stringifyFields]
    have h1 := jfuel_le_len v
    have h2 := jfuelFields_le_len (g :: rest)
    simp only [List.length_append, List.length_cons]
    omega

end

mutual

theorem parseVal_stringify : ∀ fuel j rest, jfuel j ≤ fuel → noDigitStart rest = true →
    parseVal fuel (Json.stringifyChars j ++ rest) = some (j, rest)
  | 0, j, _ => fun h _ => absurd h (by have := jfuel_pos j; omega)
  | fuel + 1, .null, rest => fun _ _ => by
    rw [Json.stringifyChars, List.cons_append, parseVal, if_pos rfl, expectChars_append]
  | fuel + 1, .bool true, rest => fun _ _ => by
    rw [Json.stringifyChars, List.cons_append, parseVal, if_neg (by decide), if_pos rfl,
      expectChars_append]
  | fuel + 1, .bool false, rest => fun _ _ => by
    rw [Json.stringifyChars, List.cons_append, parseVal, if_neg (by decide), if_neg (by decide),
      if_pos rfl, expectChars_append]
  | fuel + 1, .num n, rest => fun _ hrest => by
    obtain ⟨c, cs, hc, hd⟩ := intChars_head n
    have hne : c ≠ 'n' ∧ c ≠ 't' ∧ c ≠ 'f' ∧ c ≠ '"' ∧ c ≠ '[' ∧ c ≠ '{' := by
      rcases hd with rfl | hd
      · exact ⟨by decide, by decide, by decide, by decide, by decide, by decide⟩
      · have h := isDigitChar_ne_specials hd
        exact ⟨h.1, h.2.1, h.2.2.1, h.2.2.2.1, h.2.2.2.2.1, h.2.2.2.2.2.1⟩
    rw [Json.stringifyChars, hc, List.cons_append, parseVal,
      if_neg hne.1, if_neg hne.2.1, if_neg hne.2.2.1, if_neg hne.2.2.2.1,
      if_neg hne.2.2.2.2.1, if_neg hne.2.2.2.2.2,
      ← List.cons_append, ← hc, parseNumber_intChars n rest hrest]
  | fuel + 1, .str s, rest => fun _ _ => by
    rw [Json.stringifyChars]
    simp only [List.cons_append, List.append_assoc, List.nil_append]
    rw [parseVal, if_neg (by decide), if_neg (by decide), if_neg (by decide), if_pos rfl,
      parseStrBody_escapeChars s.data rest]
  | fuel + 1, .arr [], rest => fun _ _ => by
    rw [Json.stringifyChars]
    simp only [Json.stringifyElems, List.cons_append, List.nil_append]
    rw [parseVal, if_neg (by decide), if_neg (by decide), if_neg (by decide), if_neg (by decide),
      if_pos rfl]
    simp [headIs]
  | fuel + 1, .arr (x :: xs), rest => fun h _ => by
    rw [Json.stringifyChars]
    simp only [List.cons_append, List.append_assoc, List.nil_append]
    rw [parseVal, if_neg (by decide), if_neg (by decide), if_neg (by decide), if_neg (by decide),
      if_pos rfl]
    obtain ⟨c, cs, hcc, hne1, _⟩ := stringifyElems_head x xs
    rw [hcc, List.cons_append, headIs_cons_false hne1, if_neg Bool.false_ne_true,
      ← List.cons_append, ← hcc,
      parseElems_stringify fuel (x :: xs) rest (by rw [jfuel] at h; omega) (by simp)]
  | fuel + 1, .obj [], rest => fun _ _ => by
    rw [Json.stringifyChars]
    simp only [Json.stringifyFields, List.cons_append, List.nil_append]
    rw [parseVal, if_neg (by decide), if_neg (by decide), if_neg (by decide), if_neg (by decide),
      if_neg (by decide), if_pos rfl]
    simp [headIs]
  | fuel + 1, .obj (f :: fs), rest => fun h _ => by
    rw [Json.stringifyChars]
    simp only [List.cons_append, List.append_assoc, List.nil_append]
    rw [parseVal, if_neg (by decide), if_neg (by decide), if_neg (by decide), if_neg (by decide),
      if_neg (by decide), if_pos rfl]
    obtain ⟨cs, hcc⟩ := stringifyFields_head f fs
    rw [hcc, List.cons_append, headIs_cons_false (by decide : ('"' : Char) ≠ '}'),
      if_neg Bool.false_ne_true, ← List.cons_append, ← hcc,
      parseMembers_stringify fuel (f :: fs) rest (by rw [jfuel] at h; omega) (by simp)]

theorem parseElems_stringify : ∀ fuel xs rest, jfuelElems xs ≤ fuel → xs ≠ [] →
    parseElems fuel (Json.stringifyElems xs ++ ']' :: rest) = some (xs, rest)
  | _, [], _ => fun _ hne => absurd rfl hne
  | 0, x :: xs, rest => fun h _ => by rw [jfuelElems] at h; omega
  | fuel + 1, [x], rest => fun h _ => by
    rw [Json.stringifyElems, parseElems,
      parseVal_stringify fuel x (']' :: rest) (by rw [jfuelElems, jfuelElems] at h; omega)
        (by rw [noDigitStart]; decide)]
    simp
  | fuel + 1, x :: y :: xs, rest => fun h _ => by
    rw [Json.stringifyElems]
    simp only [List.cons_append, List.append_assoc, List.nil_append]
    rw [parseElems,
      parseVal_stringify fuel x (',' :: (Json.stringifyElems (y :: xs) ++ ']' :: rest))
        (by rw [jfuelElems] at h; omega) (by rw [noDigitStart]; decide)]
    simp only []
    rw [parseElems_stringify fuel (y :: xs) rest (by rw [jfuelElems] at h; omega) (by simp)]
    simp

theorem parseMembers_stringify : ∀ fuel fs rest, jfuelFields fs ≤ fuel → fs ≠ [] →
    parseMembers fuel (Json.stringifyFields fs ++ '}' :: rest) = some (fs, rest)
  | _, [], _ => fun _ hne => absurd rfl hne
  | 0, (k, v) :: fs, rest => fun h _ => by rw [jfuelFields] at h; omega
  | fuel + 1, [(k, v)], rest => fun h _ => by
    rw [Json.stringifyFields]
    simp only [List.cons_append, List.append_assoc, List.nil_append]
    rw [parseMembers]
    simp only []
    rw [parseStrBody_escapeChars k.data (':' :: (Json.stringifyChars v ++ '}' :: rest))]
    simp only []
    rw [parseVal_stringify fuel v ('}' :: rest) (by rw [jfuelFields, jfuelFields] at h; omega)
      (by rw [noDigitStart]; decide)]
    simp [string_mk_data]
  | fuel + 1, (k, v) :: g :: fs, rest => fun h _ => by
    rw [Json.stringifyFields]
    simp only [List.cons_append, List.append_assoc, List.nil_append]
    rw [parseMembers]
    simp only []
    rw [parseStrBody_escapeChars k.data
      (':' :: (Json.stringifyChars v ++ ',' :: (Json.stringifyFields (g :: fs) ++ '}' :: rest)))]
    simp only []
    rw [parseVal_stringify fuel v
      (',' :: (Json.stringifyFields (g :: fs) ++ '}' :: rest))
      (by rw [jfuelFields] at h; omega) (by rw [noDigitStart]; decide)]
    simp only []
    rw [parseMembers_stringify fuel (g :: fs) rest (by rw [jfuelFields] at h; omega) (by simp)]
    simp [string_mk_data]

end

/-- `JSON.parse` inverts `JSON.stringify` on every `Json` tree. -/
theorem Json.parse_stringify (j : Json) : Json.parse (Json.stringify j) = some j := by
  rw [Json.parse, Json.stringify]
  have hdata : (String.mk (Json.stringifyChars j)).data = Json.stringifyChars j := rfl
  simp only [hdata]
  have h1 := parseVal_stringify ((Json.stringifyChars j).length + 1) j []
    (by have := jfuel_le_len j; omega) rfl
  rw [List.append_nil] at h1
  rw [h1]

/-! ## The structural-serialization dependency

Modelled from the spec: the external structural-serialization dependency
(superjson) is not part of this repository. Per the spec it provides
`serialize(value) -> {json, meta?}` and `deserialize({json, meta?}) -> value`,
total over its supported type set (dates, maps, sets, arbitrary-precision
integers, typed binary buffers, nested plain data and `undefined`), each
other's exact inverse, with `meta` present exactly when the value contains a
construct plain JSON cannot represent losslessly. The manifest's internal
shape is opaque by design ("not part of this core's contract"), so the
concrete encoding below is a faithful free choice. Dates are carried by an
integer timestamp; their stand-in string is its decimal spelling (the spec's
ISO-8601 rendering is an equivalent injective spelling). -/

/-- JavaScript values the converter can receive (the dependency's supported
type set plus `undefined` and raw binary, which the composite dispatcher's
peers own at top level). -/
inductive JSValue where
  | undef
  | null
  | bool (b : Bool)
  | num (n : Int)
  | str (s : String)
  | arr (xs : List JSValue)
  | obj (fs : List (String × JSValue))
  | date (timestamp : Int)
  | jsmap (entries : List (JSValue × JSValue))
  | jsset (xs : List JSValue)
  | bigint (n : Int)
  | binary (bytes : List Nat)
deriving Repr

/-- Byte list as a plain JSON number array (stand-in for binary buffers). -/
def bytesJson : List Nat → List Json
  | [] => []
  | b :: bs => Json.num (Int.ofNat b) :: bytesJson bs

/-- Read a byte back from its JSON number stand-in. -/
def jsonToByte : Json → Nat
  | .num n => n.toNat
  | _ => 0

/-- Read a byte list back from its JSON number array stand-in. -/
def byteListOf : List Json → List Nat
  | [] => []
  | j :: js => jsonToByte j :: byteListOf js

mutual

/-- The plain-JSON-compatible tree the dependency's serialize produces:
rich constructs are replaced by JSON stand-ins. -/
def sjJson : JSValue → Json
  | .undef => .null
  | .null => .null
  | .bool b => .bool b
  | .num n => .num n
  | .str s => .str s
  | .arr xs => .arr (sjJsonList xs)
  | .obj fs => .obj (sjJsonFields fs)
  | .date t => .str (intToString t)
  | .jsmap es => .arr (sjJsonEntries es)
  | .jsset xs => .arr (sjJsonList xs)
  | .bigint n => .str (intToString n)
  | .binary bs => .arr (bytesJson bs)

/-- Serialize the values of an array. -/
def sjJsonList : List JSValue → List Json
  | [] => []
  | x :: xs => sjJson x :: sjJsonList xs

/-- Serialize the values of an object's fields. -/
def sjJsonFields : List (String × JSValue) → List (String × Json)
  | [] => []
  | (k, v) :: fs => (k, sjJson v) :: sjJsonFields fs

/-- Serialize map entries as two-element arrays. -/
def sjJsonEntries : List (JSValue × JSValue) → List Json
  | [] => []
  | (k, v) :: es => Json.arr [sjJson k, sjJson v] :: sjJsonEntries es

end

mutual

/-- The type manifest for a value: a leaf tag for rich leaves and for plain
subtrees, and a tagged list of child manifests for composites. -/
def sjMeta : JSValue → Json
  | .undef => .str "undefined"
  | .null => .str "plain"
  | .bool _ => .str "plain"
  | .num _ => .str "plain"
  | .str _ => .str "plain"
  | .arr xs => .arr (.str "array" :: sjMetaList xs)
  | .obj fs => .arr (.str "object" :: sjMetaFields fs)
  | .date _ => .str "Date"
  | .jsmap es => .arr (.str "Map" :: sjMetaEntries es)
  | .jsset xs => .arr (.str "Set" :: sjMetaList xs)
  | .bigint _ => .str "bigint"
  | .binary _ => .str "Uint8Array"

/-- Manifests of array elements. -/
def sjMetaList : List JSValue → List Json
  | [] => []
  | x :: xs => sjMeta x :: sjMetaList xs

/-- Manifests of object field values (positional; keys live in the body). -/
def sjMetaFields : List (String × JSValue) → List Json
  | [] => []
  | (_, v) :: fs => sjMeta v :: sjMetaFields fs

/-- Manifests of map entries: each two-element entry array of the body is
annotated like a two-element array. -/
def sjMetaEntries : List (JSValue × JSValue) → List Json
  | [] => []
  | (k, v) :: es => Json.arr (Json.str "array" :: sjMeta k :: sjMeta v :: []) :: sjMetaEntries es

end

mutual

/-- A value contains a construct plain JSON cannot represent losslessly. -/
def containsRich : JSValue → Bool
  | .undef => true
  | .null => false
  | .bool _ => false
  | .num _ => false
  | .str _ => false
  | .arr xs => containsRichList xs
  | .obj fs => containsRichFields fs
  | .date _ => true
  | .jsmap _ => true
  | .jsset _ => true
  | .bigint _ => true
  | .binary _ => true

/-- Some array element contains a rich construct. -/
def containsRichList : List JSValue → Bool
  | [] => false
  | x :: xs => containsRich x || containsRichList xs

/-- Some field value contains a rich construct. -/
def containsRichFields : List (String × JSValue) → Bool
  | [] => false
  | (_, v) :: fs => containsRich v || containsRichFields fs

end

mutual

/-- Embed a plain JSON tree as a value unchanged (the `json as T` cast on the
manifest-free path). -/
def plainOf : Json → JSValue
  | .null => .null
  | .bool b => .bool b
  | .num n => .num n
  | .str s => .str s
  | .arr xs => .arr (plainOfList xs)
  | .obj fs => .obj (plainOfFields fs)

/-- Embed plain JSON array elements. -/
def plainOfList : List Json → List JSValue
  | [] => []
  | j :: js => plainOf j :: plainOfList js

/-- Embed plain JSON object fields. -/
def plainOfFields : List (String × Json) → List (String × JSValue)
  | [] => []
  | (k, j) :: fs => (k, plainOf j) :: plainOfFields fs

end

/-- The string carried by a JSON string node (shape accessor). -/
def jsonStr : Json → String
  | .str s => s
  | _ => ""

/-- The elements carried by a JSON array node (shape accessor). -/
def jsonElems : Json → List Json
  | .arr xs => xs
  | _ => []

/-- The fields carried by a JSON object node (shape accessor). -/
def jsonFields : Json → List (String × Json)
  | .obj fs => fs
  | _ => []

/-- Regroup restored two-element entry arrays into map entries. -/
def toEntries : List JSValue → List (JSValue × JSValue)
  | [] => []
  | .arr (k :: v :: _) :: rest => (k, v) :: toEntries rest
  | _ :: rest => toEntries rest

mutual

/-- The dependency's deserialize on a body tree and its manifest: restore
each annotated subtree to its rich form. -/
def sjRestore : Json → Json → JSValue
  | j, .str tag =>
    if tag = "undefined" then .undef
    else if tag = "Date" then .date (strToInt (jsonStr j))
    else if tag = "bigint" then .bigint (strToInt (jsonStr j))
    else if tag = "Uint8Array" then .binary (byteListOf (jsonElems j))
    else plainOf j
  | j, .arr (.str tag :: ms) =>
    if tag = "array" then .arr (sjRestoreList (jsonElems j) ms)
    else if tag = "object" then .obj (sjRestoreFields (jsonFields j) ms)
    else if tag = "Map" then .jsmap (toEntries (sjRestoreList (jsonElems j) ms))
    else if tag = "Set" then .jsset (sjRestoreList (jsonElems j) ms)
    else plainOf j
  | j, _ => plainOf j

/-- Restore array elements against their positional manifests. -/
def sjRestoreList : List Json → List Json → List JSValue
  | _, [] => []
  | [], _ :: _ => []
  | j :: js, m :: ms => sjRestore j m :: sjRestoreList js ms

/-- Restore object fields against their positional manifests. -/
def sjRestoreFields : List (String × Json) → List Json → List (String × JSValue)
  | _, [] => []
  | [], _ :: _ => []
  | (k, j) :: js, m :: ms => (k, sjRestore j m) :: sjRestoreFields js ms

end

/-- The dependency's serialize result: a plain-JSON tree and an optional
manifest. -/
structure SuperJSONResult where
  json : Json
  meta : Option Json
deriving Repr

/-- Modelled from the spec: `superjson.serialize(value) -> {json, meta?}`,
with the manifest present exactly when the value contains a construct plain
JSON cannot represent losslessly. -/
def superjson.serialize (v : JSValue) : SuperJSONResult :=
  { json := sjJson v, meta := if containsRich v then some (sjMeta v) else none }

/-- Modelled from the spec: `superjson.deserialize({json, meta?}) -> value`,
the exact inverse of serialize; without a manifest the body is returned
unchanged. -/
def superjson.deserialize (r : SuperJSONResult) : JSValue :=
  match r.meta with
  | none => plainOf r.json
  | some m => sjRestore r.json m

/-! ## The modelled dependency is an exact serialize/deserialize inverse pair -/

theorem strToInt_intToString (n : Int) : strToInt (intToString n) = n := by
  have hdata : (intToString n).data = intChars n := rfl
  rw [strToInt, hdata, intChars]
  by_cases hn : n < 0
  · rw [if_pos hn]
    have h := parseDigits_natToChars n.natAbs [] rfl
    rw [List.append_nil] at h
    simp only []
    rw [if_pos trivial, h]
    simp only []
    omega
  · rw [if_neg hn]
    obtain ⟨c, cs, hc, hd⟩ := natToChars_head_digit n.toNat
    have h := parseDigits_natToChars n.toNat [] rfl
    rw [List.append_nil] at h
    rw [hc]
    simp only []
    rw [if_neg (isDigitChar_ne_specials hd).2.2.2.2.2.2.1, ← hc, h]
    simp only []
    omega

theorem byteListOf_bytesJson (bs : List Nat) : byteListOf (bytesJson bs) = bs := by
  induction bs with
  | nil => rfl
  | cons b bs ih =>
    rw [bytesJson, byteListOf, jsonToByte, ih]
    rfl

mutual

theorem plainOf_sjJson : ∀ v, containsRich v = false → plainOf (sjJson v) = v
  | .undef => fun h => by rw [containsRich] at h; exact Bool.noConfusion h
  | .null => fun _ => by rw [sjJson, plainOf]
  | .bool b => fun _ => by rw [sjJson, plainOf]
  | .num n => fun _ => by rw [sjJson, plainOf]
  | .str s => fun _ => by rw [sjJson, plainOf]
  | .arr xs => fun h => by
    rw [containsRich] at h
    rw [sjJson, plainOf, plainOfList_sjJsonList xs h]
  | .obj fs => fun h => by
    rw [containsRich] at h
    rw [sjJson, plainOf, plainOfFields_sjJsonFields fs h]
  | .date t => fun h => by rw [containsRich] at h; exact Bool.noConfusion h
  | .jsmap es => fun h => by rw [containsRich] at h; exact Bool.noConfusion h
  | .jsset xs => fun h => by rw [containsRich] at h; exact Bool.noConfusion h
  | .bigint n => fun h => by rw [containsRich] at h; exact Bool.noConfusion h
  | .binary bs => fun h => by rw [containsRich] at h; exact Bool.noConfusion h

theorem plainOfList_sjJsonList :
    ∀ xs, containsRichList xs = false → plainOfList (sjJsonList xs) = xs
  | [] => fun _ => by rw [sjJsonList, plainOfList]
  | x :: xs => fun h => by
    rw [containsRichList, Bool.or_eq_false_iff] at h
    rw [sjJsonList, plainOfList, plainOf_sjJson x h.1, plainOfList_sjJsonList xs h.2]

theorem plainOfFields_sjJsonFields :
    ∀ fs, containsRichFields fs = false → plainOfFields (sjJsonFields fs) = fs
  | [] => fun _ => by rw [sjJsonFields, plainOfFields]
  | (k, v) :: fs => fun h => by
    rw [containsRichFields, Bool.or_eq_false_iff] at h
    rw [sjJsonFields, plainOfFields, plainOf_sjJson v h.1, plainOfFields_sjJsonFields fs h.2]

end

mutual

theorem sjRestore_sjJson : ∀ v, sjRestore (sjJson v) (sjMeta v) = v
  | .undef => by rw [sjJson, sjMeta, sjRestore, if_pos rfl]
  | .null => by
    rw [sjJson, sjMeta, sjRestore, if_neg (by decide), if_neg (by decide), if_neg (by decide),
      if_neg (by decide), plainOf]
  | .bool b => by
    rw [sjJson, sjMeta, sjRestore, if_neg (by decide), if_neg (by decide), if_neg (by decide),
      if_neg (by decide), plainOf]
  | .num n => by
    rw [sjJson, sjMeta, sjRestore, if_neg (by decide), if_neg (by decide), if_neg (by decide),
      if_neg (by decide), plainOf]
  | .str s => by
    rw [sjJson, sjMeta, sjRestore, if_neg (by decide), if_neg (by decide), if_neg (by decide),
      if_neg (by decide), plainOf]
  | .arr xs => by
    rw [sjJson, sjMeta, sjRestore, if_pos rfl, jsonElems, sjRestoreList_sjJson xs]
  | .obj fs => by
    rw [sjJson, sjMeta, sjRestore, if_neg (by decide), if_pos rfl, jsonFields,
      sjRestoreFields_sjJson fs]
  | .date t => by
    rw [sjJson, sjMeta, sjRestore, if_neg (by decide), if_pos rfl, jsonStr,
      strToInt_intToString]
  | .jsmap es => by
    rw [sjJson, sjMeta, sjRestore, if_neg (by decide), if_neg (by decide), if_pos rfl,
      jsonElems, restoreEntries_sjJson es]
  | .jsset xs => by
    rw [sjJson, sjMeta, sjRestore, if_neg (by decide), if_neg (by decide), if_neg (by decide),
      if_pos rfl, jsonElems, sjRestoreList_sjJson xs]
  | .bigint n => by
    rw [sjJson, sjMeta, sjRestore, if_neg (by decide), if_neg (by decide), if_pos rfl,
      jsonStr, strToInt_intToString]
  | .binary bs => by
    rw [sjJson, sjMeta, sjRestore, if_neg (by decide), if_neg (by decide), if_neg (by decide),
      if_pos rfl, jsonElems, byteListOf_bytesJson]

theorem sjRestoreList_sjJson : ∀ xs, sjRestoreList (sjJsonList xs) (sjMetaList xs) = xs
  | [] => by rw [sjJsonList, sjMetaList, sjRestoreList]
  | x :: xs => by
    rw [sjJsonList, sjMetaList, sjRestoreList, sjRestore_sjJson x, sjRestoreList_sjJson xs]

theorem sjRestoreFields_sjJson :
    ∀ fs, sjRestoreFields (sjJsonFields fs) (sjMetaFields fs) = fs
  | [] => by rw [sjJsonFields, sjMetaFields, sjRestoreFields]
  | (k, v) :: fs => by
    rw [sjJsonFields, sjMetaFields, sjRestoreFields, sjRestore_sjJson v,
      sjRestoreFields_sjJson fs]

theorem restoreEntries_sjJson :
    ∀ es, toEntries (sjRestoreList (sjJsonEntries es) (sjMetaEntries es)) = es
  | [] => by rw [sjJsonEntries, sjMetaEntries, sjRestoreList, toEntries]
  | (k, v) :: es => by
    have hk := sjRestore_sjJson k
    have hv := sjRestore_sjJson v
    have he := restoreEntries_sjJson es
    rw [sjJsonEntries, sjMetaEntries, sjRestoreList, sjRestore, if_pos rfl, jsonElems,
      sjRestoreList, hk, sjRestoreList, hv, sjRestoreList, toEntries, he]

end

/-- The modelled dependency satisfies the spec's inverse law:
`deserialize(serialize(v)) == v` for every supported value. -/
theorem superjson.deserialize_serialize (v : JSValue) :
    superjson.deserialize (superjson.serialize v) = v := by
  rw [superjson.serialize]
  by_cases h : containsRich v = true
  · rw [if_pos h]
    exact sjRestore_sjJson v
  · rw [if_neg h]
    exact plainOf_sjJson v (by revert h; cases containsRich v <;> simp)

/-! ## The payload envelope and the converter (`src/encoding.ts`)

`Payload` is the host envelope shape: an optional metadata mapping from
string keys to byte values and an optional byte body. The JavaScript
`!payload.data` test is false for every present `Uint8Array` (objects are
truthy, even when empty), so "data missing" is exactly `data = none`. -/

/-- The host payload envelope (metadata mapping plus optional body). -/
structure Payload where
  metadata : Option (List (String × List Nat))
  data : Option (List Nat)
deriving Repr, DecidableEq

/-- Reserved metadata key for SuperJSON type information
(`SUPERJSON_META_KEY` in `src/encoding.ts`). -/
def SUPERJSON_META_KEY : String := "superjson-meta"

/-- The host's encoding-identifier metadata key (`METADATA_ENCODING_KEY`
imported from the host payload-envelope library). -/
def METADATA_ENCODING_KEY : String := "encoding"

/-- The fixed encoding identifier this converter declares (`ENCODING`). -/
def ENCODING : String := "json/plain"

/-- The metadata bytes stored under the reserved manifest key, when any: the
source's `payload.metadata?.[SUPERJSON_META_KEY]`. -/
def Payload.metaRaw (p : Payload) : Option (List Nat) :=
  match p.metadata with
  | none => none
  | some md => md.lookup SUPERJSON_META_KEY

/-- The failures `fromPayload` can surface: its own "missing data"
`ValueError`, or a `JSON.parse` failure propagated unchanged. -/
inductive ConversionError where
  | missingData
  | jsonParseError
deriving Repr, DecidableEq

/-- The `value === undefined` test of `toPayload`. -/
def JSValue.isUndefined : JSValue → Bool
  | .undef => true
  | _ => false

namespace SuperJsonPayloadConverter

/-- `SuperJsonPayloadConverter.toPayload`: decline `undefined`; otherwise
serialize through the dependency, store the encoding identifier (and, when
the dependency produced a manifest, its JSON-stringified bytes under the
reserved key) in the metadata, and the JSON-stringified body bytes in
`data`. -/
def toPayload (value : JSValue) : Option Payload :=
  if value.isUndefined then none
  else
    some
      ⟨some
          (match (superjson.serialize value).meta with
            | none => [(METADATA_ENCODING_KEY, encode ENCODING)]
            | some m =>
              [(METADATA_ENCODING_KEY, encode ENCODING),
               (SUPERJSON_META_KEY, encode (Json.stringify m))]),
        some (encode (Json.stringify (superjson.serialize value).json))⟩

/-- `SuperJsonPayloadConverter.fromPayload`: fail with the "missing data"
error when `data` is absent; parse the body; return it as-is when the
reserved manifest key is absent, and otherwise parse the manifest and
restore through the dependency's deserialize. -/
def fromPayload (payload : Payload) : Except ConversionError JSValue :=
  match payload.data with
  | none => .error .missingData
  | some bytes =>
    match Json.parse (decode bytes) with
    | none => .error .jsonParseError
    | some json =>
      match payload.metaRaw with
      | none => .ok (plainOf json)
      | some metaRaw =>
        match Json.parse (decode metaRaw) with
        | none => .error .jsonParseError
        | some meta => .ok (superjson.deserialize ⟨json, some meta⟩)

end SuperJsonPayloadConverter

/-! ## The composite dispatcher (`payloadConverter` in `src/encoding.ts`)

Modelled from the spec: `CompositePayloadConverter`, `UndefinedPayloadConverter`
and `BinaryPayloadConverter` live in the host library, not in this repository.
Per the spec, the composite tries converters in declared order on encode and
uses the first defined payload; the two peers own `undefined` and raw binary
values, each with its own distinct encoding identifier. -/

/-- Modelled from the spec: the peer converter owning `undefined` — accepts
exactly `undefined`, producing a body-less payload under its own encoding
identifier. -/
def UndefinedPayloadConverter.toPayload (v : JSValue) : Option Payload :=
  if v.isUndefined then
    some ⟨some [(METADATA_ENCODING_KEY, encode "binary/null")], none⟩
  else none

/-- The `value instanceof Uint8Array` test of the raw-binary peer. -/
def JSValue.isBinary : JSValue → Bool
  | .binary _ => true
  | _ => false

/-- The bytes of a raw binary value (empty otherwise). -/
def JSValue.binaryBytes : JSValue → List Nat
  | .binary bs => bs
  | _ => []

/-- Modelled from the spec: the peer converter owning raw binary buffers —
accepts exactly binary values, passing the bytes through under its own
encoding identifier. -/
def BinaryPayloadConverter.toPayload (v : JSValue) : Option Payload :=
  if v.isBinary then
    some ⟨some [(METADATA_ENCODING_KEY, encode "binary/plain")], some v.binaryBytes⟩
  else none

/-- The three converter kinds the exported composite holds. -/
inductive CompositeEntry where
  | undefinedConverter
  | binaryConverter
  | superjsonConverter
deriving Repr, DecidableEq

/-- Encode step of one entry of the chain. -/
def CompositeEntry.toPayload : CompositeEntry → JSValue → Option Payload
  | .undefinedConverter => UndefinedPayloadConverter.toPayload
  | .binaryConverter => BinaryPayloadConverter.toPayload
  | .superjsonConverter => SuperJsonPayloadConverter.toPayload

/-- Modelled from the spec: the composite holds an ordered converter chain. -/
structure CompositePayloadConverter where
  converters : List CompositeEntry
deriving Repr

/-- Modelled from the spec: on encode the dispatcher tries converters in the
declared order and uses the first one that returns a defined payload. -/
def CompositePayloadConverter.toPayload (c : CompositePayloadConverter) (v : JSValue) :
    Option Payload :=
  c.converters.findSome? (fun e => e.toPayload v)

/-- The exported pre-configured composite (`payloadConverter` in
`src/encoding.ts`): undefined handler, then binary handler, then the
SuperJSON converter. -/
def payloadConverter : CompositePayloadConverter :=
  ⟨[.undefinedConverter, .binaryConverter, .superjsonConverter]⟩

/-! ## Claim theorems -/

theorem isUndefined_eq_false {v : JSValue} (h : v ≠ JSValue.undef) :
    v.isUndefined = false := by
  cases v
  case undef => exact absurd rfl h
  all_goals rfl

theorem serialize_json (v : JSValue) : (superjson.serialize v).json = sjJson v := rfl

theorem serialize_meta (v : JSValue) :
    (superjson.serialize v).meta = if containsRich v then some (sjMeta v) else none := rfl

theorem lookup_meta_of_plain (bs : List Nat) :
    [(METADATA_ENCODING_KEY, bs)].lookup SUPERJSON_META_KEY = none := rfl

theorem lookup_meta_of_rich (b1 b2 : List Nat) :
    [(METADATA_ENCODING_KEY, b1), (SUPERJSON_META_KEY, b2)].lookup SUPERJSON_META_KEY =
      some b2 := rfl

theorem lookup_enc_of_plain (bs : List Nat) :
    [(METADATA_ENCODING_KEY, bs)].lookup METADATA_ENCODING_KEY = some bs := rfl

theorem lookup_enc_of_rich (b1 b2 : List Nat) :
    [(METADATA_ENCODING_KEY, b1), (SUPERJSON_META_KEY, b2)].lookup METADATA_ENCODING_KEY =
      some b1 := rfl

/-- C5: `toPayload(undefined)` returns "no payload" (absent), declining the
value so the dispatcher's dedicated undefined-handler peer applies; for every
other input, including `null`, `toPayload` does not decline. -/
theorem toPayload_none_iff_undefined (v : JSValue) :
    SuperJsonPayloadConverter.toPayload v = none ↔ v = JSValue.undef := by
  cases v <;> simp [SuperJsonPayloadConverter.toPayload, JSValue.isUndefined]

/-- C4: `fromPayload` raises the "missing data" error exactly when the
payload's `data` field is absent; every other failure is a propagated
JSON-parse failure, and a failing call returns no default value (the result
is the error itself). -/
theorem fromPayload_missingData_iff (p : Payload) :
    SuperJsonPayloadConverter.fromPayload p = Except.error ConversionError.missingData ↔
      p.data = none := by
  obtain ⟨md, d⟩ := p
  cases d with
  | none => simp [SuperJsonPayloadConverter.fromPayload]
  | some bytes =>
    simp only [SuperJsonPayloadConverter.fromPayload]
    cases hp : Json.parse (decode bytes) with
    | none => simp
    | some j =>
      cases hm : Payload.metaRaw ⟨md, some bytes⟩ with
      | none => simp [hm]
      | some mr =>
        cases hp2 : Json.parse (decode mr) with
        | none => simp [hm, hp2]
        | some m => simp [hm, hp2]

/-- C10: a payload whose `data` is present but a zero-length byte sequence is
not treated as missing data (the JavaScript truthiness test only fires on an
absent field); instead the JSON parse of the empty text fails and that parse
error propagates. -/
theorem fromPayload_empty_data (p : Payload) (h : p.data = some []) :
    SuperJsonPayloadConverter.fromPayload p ≠ Except.error ConversionError.missingData ∧
    SuperJsonPayloadConverter.fromPayload p = Except.error ConversionError.jsonParseError := by
  have hres : SuperJsonPayloadConverter.fromPayload p =
      Except.error ConversionError.jsonParseError := by
    simp only [SuperJsonPayloadConverter.fromPayload, h]
    rfl
  rw [hres]
  exact ⟨by simp, rfl⟩

/-- C9: `fromPayload` never inspects the encoding-identifier metadata entry:
its result depends only on the `data` bytes and the reserved manifest entry,
so altering or removing the encoding entry changes nothing, and a payload
with no metadata mapping at all still decodes via the plain-JSON path. -/
theorem fromPayload_ignores_encoding_entry :
    (∀ p q : Payload, p.data = q.data → p.metaRaw = q.metaRaw →
      SuperJsonPayloadConverter.fromPayload p = SuperJsonPayloadConverter.fromPayload q) ∧
    (∀ bs j, Json.parse (decode bs) = some j →
      SuperJsonPayloadConverter.fromPayload ⟨none, some bs⟩ = Except.ok (plainOf j)) := by
  constructor
  · intro p q hd hm
    simp only [SuperJsonPayloadConverter.fromPayload, hd, hm]
  · intro bs j hp
    simp only [SuperJsonPayloadConverter.fromPayload, hp, Payload.metaRaw]

/-- C6: for every payload whose `data` is present and whose metadata carries
no reserved manifest entry, `fromPayload` returns exactly the JSON-parse of
the UTF-8 decoded body embedded as a value, with no type restoration —
covering object bodies, bare arrays and bare primitives alike. -/
theorem fromPayload_no_meta_plain (p : Payload) (bs : List Nat) (j : Json)
    (hd : p.data = some bs) (hm : p.metaRaw = none)
    (hp : Json.parse (decode bs) = some j) :
    SuperJsonPayloadConverter.fromPayload p = Except.ok (plainOf j) := by
  simp only [SuperJsonPayloadConverter.fromPayload, hd, hp, hm]

/-- C2: for every defined input, `toPayload` produces a payload whose `data`
equals the UTF-8 bytes of `JSON.stringify` of the dependency's `json` tree,
whose metadata maps the encoding-identifier key to the UTF-8 bytes of the
fixed constant `"json/plain"`, and whose body is an independently parseable
plain-JSON document (it parses back to the `json` tree) whether or not a
manifest is attached. -/
theorem toPayload_envelope (v : JSValue) (hv : v ≠ JSValue.undef) :
    ∃ p, SuperJsonPayloadConverter.toPayload v = some p ∧
      p.data = some (encode (Json.stringify (superjson.serialize v).json)) ∧
      (∃ md, p.metadata = some md ∧
        md.lookup METADATA_ENCODING_KEY = some (encode ENCODING)) ∧
      ∀ bs, p.data = some bs → Json.parse (decode bs) = some (superjson.serialize v).json := by
  have hu := isUndefined_eq_false hv
  simp only [SuperJsonPayloadConverter.toPayload, hu, Bool.false_eq_true, if_false]
  refine ⟨_, rfl, rfl, ?_, ?_⟩
  · rw [serialize_meta]
    by_cases hcr : containsRich v = true
    · rw [if_pos hcr]
      exact ⟨_, rfl, lookup_enc_of_rich _ _⟩
    · rw [if_neg hcr]
      exact ⟨_, rfl, lookup_enc_of_plain _⟩
  · intro bs hbs
    injection hbs with hbs
    subst hbs
    rw [decode_encode_aux, Json.parse_stringify]

/-- C3: the payload produced for a defined value carries the reserved
`"superjson-meta"` metadata entry exactly when the dependency's serialize
returned a defined `meta` component, which happens exactly when the value
contains a construct plain JSON cannot represent losslessly (a date, map,
set, arbitrary-precision integer, binary buffer or nested `undefined`);
for fully plain values the entry is absent. -/
theorem toPayload_meta_key_iff (v : JSValue) (p : Payload)
    (hp : SuperJsonPayloadConverter.toPayload v = some p) :
    (p.metaRaw.isSome ↔ (superjson.serialize v).meta.isSome) ∧
    ((superjson.serialize v).meta.isSome ↔ containsRich v = true) := by
  by_cases hv : v = JSValue.undef
  · subst hv
    simp [SuperJsonPayloadConverter.toPayload, JSValue.isUndefined] at hp
  · have hu := isUndefined_eq_false hv
    simp only [SuperJsonPayloadConverter.toPayload, hu, Bool.false_eq_true, if_false] at hp
    injection hp with hp
    subst hp
    rw [serialize_meta]
    by_cases hcr : containsRich v = true
    · rw [if_pos hcr]
      simp [Payload.metaRaw, lookup_meta_of_rich, hcr]
    · rw [if_neg hcr]
      simp [Payload.metaRaw, lookup_meta_of_plain, hcr]

/-- C1: for every defined value the converter round-trips:
`fromPayload(toPayload(v))` restores a value equal to `v`, including nested
combinations of maps, sets and dates; the modelled dependency satisfies the
spec's assumption that deserialize is the exact inverse of serialize
(`superjson.deserialize_serialize`). -/
theorem fromPayload_toPayload (v : JSValue) (hv : v ≠ JSValue.undef) :
    ∃ p, SuperJsonPayloadConverter.toPayload v = some p ∧
      SuperJsonPayloadConverter.fromPayload p = Except.ok v := by
  have hu := isUndefined_eq_false hv
  simp only [SuperJsonPayloadConverter.toPayload, hu, Bool.false_eq_true, if_false]
  refine ⟨_, rfl, ?_⟩
  rw [serialize_meta, serialize_json]
  by_cases hcr : containsRich v = true
  · rw [if_pos hcr]
    simp only [SuperJsonPayloadConverter.fromPayload, Payload.metaRaw]
    rw [decode_encode_aux, Json.parse_stringify]
    simp only [lookup_meta_of_rich]
    rw [decode_encode_aux, Json.parse_stringify]
    simp only [superjson.deserialize]
    rw [sjRestore_sjJson]
  · rw [if_neg hcr]
    simp only [SuperJsonPayloadConverter.fromPayload, Payload.metaRaw]
    rw [decode_encode_aux, Json.parse_stringify]
    simp only [lookup_meta_of_plain]
    rw [plainOf_sjJson v (by revert hcr; cases containsRich v <;> simp)]

theorem isBinary_eq_false {v : JSValue} (h : ∀ bs, v ≠ JSValue.binary bs) :
    v.isBinary = false := by
  cases v
  case binary bs => exact absurd rfl (h bs)
  all_goals rfl

/-- C8: the exported composite holds exactly the three converters in the
fixed order undefined-handler, raw-binary handler, SuperJSON converter; on
encode the first converter returning a defined payload wins, so `undefined`
and raw binary buffers are taken by the peers and never reach the SuperJSON
converter, while every other value is handled by it. -/
theorem payloadConverter_dispatch :
    payloadConverter.converters =
      [CompositeEntry.undefinedConverter, CompositeEntry.binaryConverter,
        CompositeEntry.superjsonConverter] ∧
    (payloadConverter.toPayload JSValue.undef =
        UndefinedPayloadConverter.toPayload JSValue.undef ∧
      (UndefinedPayloadConverter.toPayload JSValue.undef).isSome = true) ∧
    (∀ bs, payloadConverter.toPayload (JSValue.binary bs) =
        BinaryPayloadConverter.toPayload (JSValue.binary bs) ∧
      (BinaryPayloadConverter.toPayload (JSValue.binary bs)).isSome = true) ∧
    ∀ v, v ≠ JSValue.undef → (∀ bs, v ≠ JSValue.binary bs) →
      payloadConverter.toPayload v = SuperJsonPayloadConverter.toPayload v := by
  refine ⟨rfl, ⟨rfl, rfl⟩, fun bs => ⟨rfl, rfl⟩, fun v h1 h2 => ?_⟩
  have hub := isUndefined_eq_false h1
  have hbb := isBinary_eq_false h2
  simp only [CompositePayloadConverter.toPayload, payloadConverter, List.findSome?,
    CompositeEntry.toPayload, UndefinedPayloadConverter.toPayload,
    BinaryPayloadConverter.toPayload, hub, hbb, Bool.false_eq_true, if_false]
  cases h : SuperJsonPayloadConverter.toPayload v <;> simp [h]

/-- Witness for C1 at a map whose value is a set whose member is a date. -/
theorem fromPayload_toPayload_witness :
    ∃ p, SuperJsonPayloadConverter.toPayload
        (JSValue.jsmap [(JSValue.str "k", JSValue.jsset [JSValue.date 5])]) = some p ∧
      SuperJsonPayloadConverter.fromPayload p =
        Except.ok (JSValue.jsmap [(JSValue.str "k", JSValue.jsset [JSValue.date 5])]) :=
  fromPayload_toPayload _ (fun h => nomatch h)

/-- Witness for C2 at a plain object value. -/
theorem toPayload_envelope_witness :
    ∃ p, SuperJsonPayloadConverter.toPayload
        (JSValue.obj [("name", JSValue.str "test"), ("count", JSValue.num 42)]) = some p ∧
      p.data = some (encode (Json.stringify (superjson.serialize
        (JSValue.obj [("name", JSValue.str "test"), ("count", JSValue.num 42)])).json)) ∧
      (∃ md, p.metadata = some md ∧
        md.lookup METADATA_ENCODING_KEY = some (encode ENCODING)) ∧
      ∀ bs, p.data = some bs → Json.parse (decode bs) = some (superjson.serialize
        (JSValue.obj [("name", JSValue.str "test"), ("count", JSValue.num 42)])).json :=
  toPayload_envelope _ (fun h => nomatch h)

/-- Witness for C3 at a date value, whose concrete payload carries the
manifest entry. -/
theorem toPayload_meta_key_iff_witness :
    ((Payload.mk
        (some [(METADATA_ENCODING_KEY, encode ENCODING),
          (SUPERJSON_META_KEY, encode "\"Date\"")])
        (some (encode "\"5\""))).metaRaw.isSome ↔
      (superjson.serialize (JSValue.date 5)).meta.isSome) ∧
    ((superjson.serialize (JSValue.date 5)).meta.isSome ↔
      containsRich (JSValue.date 5) = true) :=
  toPayload_meta_key_iff (JSValue.date 5) _ rfl

/-- Witness for C6 at a hand-built legacy payload with an object body. -/
theorem fromPayload_no_meta_plain_witness :
    SuperJsonPayloadConverter.fromPayload
      ⟨some [(METADATA_ENCODING_KEY, encode ENCODING)],
        some (encode "\x7b\"name\":\"legacy\",\"value\":123\x7d")⟩ =
      Except.ok (plainOf (Json.obj [("name", Json.str "legacy"), ("value", Json.num 123)])) :=
  fromPayload_no_meta_plain _ _ _ rfl rfl rfl

/-- Witness for C8: a plain value is dispatched to the SuperJSON converter. -/
theorem payloadConverter_dispatch_witness :
    payloadConverter.toPayload JSValue.null = SuperJsonPayloadConverter.toPayload JSValue.null :=
  payloadConverter_dispatch.2.2.2 JSValue.null (fun h => nomatch h) (fun _ h => nomatch h)

/-- Witness for C9: removing the encoding entry leaves decoding unchanged. -/
theorem fromPayload_ignores_encoding_entry_witness :
    SuperJsonPayloadConverter.fromPayload
        ⟨some [(METADATA_ENCODING_KEY, encode ENCODING)], some (encode "42")⟩ =
      SuperJsonPayloadConverter.fromPayload ⟨none, some (encode "42")⟩ :=
  fromPayload_ignores_encoding_entry.1 _ _ rfl rfl

/-- Witness for C10 at a payload with metadata and an empty body. -/
theorem fromPayload_empty_data_witness :
    SuperJsonPayloadConverter.fromPayload
        ⟨some [(METADATA_ENCODING_KEY, encode ENCODING)], some []⟩ ≠
      Except.error ConversionError.missingData ∧
    SuperJsonPayloadConverter.fromPayload
        ⟨some [(METADATA_ENCODING_KEY, encode ENCODING)], some []⟩ =
      Except.error ConversionError.jsonParseError :=
  fromPayload_empty_data _ rfl
